import Mathlib

/-!
Verification of the MailMinder heuristic core (`mailminder/actions.py` and
`mailminder/preprocess.py`) against its natural-language specification.

Strings are embedded as `List Char` (Python strings are sequences of code
points, and Python `len` counts code points).  Python dicts appearing as
inputs are embedded as structures whose fields model the keys the code
reads; values read with `dict.get` become `Option`s, values read with
`dict[...]` (which raises `KeyError` when missing) make the embedding
return an `Option` result.  Calls into external libraries
(`EmailReplyParser.parse_reply`, BeautifulSoup's HTML-to-text, base64
decoding, RFC-2822 date parsing, the wall clock) are passed in as explicit
function parameters, so every theorem quantifies over their behaviour.
-/

namespace MailMinder

/-- Python `str.strip` / `str.lstrip` whitespace test (ASCII fragment). -/
def isWs (c : Char) : Bool := c.isWhitespace

/-- Embedding of Python `str.lstrip()`. -/
def pyLstrip (l : List Char) : List Char := l.dropWhile isWs

/-- Embedding of Python `str.rstrip()`. -/
def pyRstrip (l : List Char) : List Char := (l.reverse.dropWhile isWs).reverse

/-- Embedding of Python `str.strip()`. -/
def pyStrip (l : List Char) : List Char := pyRstrip (pyLstrip l)

/-- Embedding of Python `str.lower()` (ASCII fragment, as used by the code). -/
def toLowerL (l : List Char) : List Char := l.map Char.toLower

/-- The `importance` value found in a raw dict entry: absent, an int, or a
string label. -/
inductive ImpVal where
  | noneVal
  | intVal (i : Int)
  | strVal (s : List Char)
deriving DecidableEq

/-- `mailminder.actions`: one raw entry of a summary result's
`action_items` list.  Python values that are neither `str` nor `dict`
are represented by `otherVal`; a dict is represented by the three keys
`normalize_items` reads (`title`, `task`, `importance`). -/
inductive RawEntry where
  | strVal (s : List Char)
  | dictVal (title task : Option (List Char)) (importance : ImpVal)
  | otherVal
deriving DecidableEq

/-- Canonical action item `{"title": str, "importance": int}` produced by
`normalize_items`. -/
structure ActionItem where
  title : List Char
  importance : Int
deriving DecidableEq

/-- Python truthiness chain `a or b or ""` over optional strings:
the first present, non-empty string, else `""`. -/
def optTruthy (a : Option (List Char)) : List Char :=
  match a with
  | some x => x
  | none => []

/-- `it.get("title") or it.get("task") or ""`. -/
def firstTruthy (a b : Option (List Char)) : List Char :=
  if optTruthy a = [] then optTruthy b else optTruthy a

/-- The label table `{"low": 1, "normal": 2, "high": 3}.get(imp.lower(), 2)`
from `normalize_items`. -/
def impFromStr (s : List Char) : Int :=
  if toLowerL s = "low".toList then 1
  else if toLowerL s = "normal".toList then 2
  else if toLowerL s = "high".toList then 3
  else 2

/-- The importance-coercion block of `normalize_items`: string labels are
mapped through the table, then anything that is not an int in `[0, 3]`
defaults to 2. -/
def normImp : ImpVal → Int
  | .noneVal => 2
  | .intVal i => if 0 ≤ i ∧ i ≤ 3 then i else 2
  | .strVal s =>
      let i := impFromStr s
      if 0 ≤ i ∧ i ≤ 3 then i else 2

/-- The first loop of `normalize_items`: turn one raw entry into a
canonical `{"title", "importance"}` record, dropping entries whose
stripped title is empty and non-str/non-dict entries. -/
def normEntry : RawEntry → Option ActionItem
  | .strVal s =>
      let title := pyStrip s
      if title = [] then none else some ⟨title, 2⟩
  | .dictVal title task imp =>
      let t := pyStrip (firstTruthy title task)
      if t = [] then none else some ⟨t, normImp imp⟩
  | .otherVal => none

/-- Dedup key used by `normalize_items`: `n["title"].lower()`. -/
def keyOf (a : ActionItem) : List Char := toLowerL a.title

/-- The second loop of `normalize_items`: drop any record whose lowercase
title was already seen (`seen` models the Python set). -/
def dedupBy (seen : List (List Char)) : List ActionItem → List ActionItem
  | [] => []
  | n :: rest =>
      if keyOf n ∈ seen then dedupBy seen rest
      else n :: dedupBy (keyOf n :: seen) rest

/-- Embedding of `mailminder.actions.normalize_items`. -/
def normalize_items (items : List RawEntry) : List ActionItem :=
  dedupBy [] (items.filterMap normEntry)

/-- Length of a match of one URL-scheme alternative (`p` plus `\S+`) at the
head of `l`. -/
def urlCheck (p : String) (l : List Char) : Option Nat :=
  if l.take p.toList.length = p.toList then
    if ((l.drop p.toList.length).takeWhile (fun c => !isWs c)).length > 0 then
      some (p.toList.length + ((l.drop p.toList.length).takeWhile (fun c => !isWs c)).length)
    else none
  else none

/-- Length of the match of the regex `https?://\\S+` at the head of `l`
(`none` when it does not match here).  The pattern needs the literal
scheme and at least one following non-whitespace character. -/
def urlMatchLen (l : List Char) : Option Nat :=
  match urlCheck "https://" l with
  | some n => some n
  | none => urlCheck "http://" l

/-- Non-overlapping left-to-right substitution of `https?://\\S+` by `repl`,
the semantics of `re.sub` with this pattern: `skip` counts characters of
a previously found match that remain to be consumed. -/
def subUrlsGo (repl : List Char) (skip : Nat) : List Char → List Char
  | [] => []
  | c :: rest =>
      match skip with
      | Nat.succ k => subUrlsGo repl k rest
      | 0 =>
          match urlMatchLen (c :: rest) with
          | some n => repl ++ subUrlsGo repl (n - 1) rest
          | none => c :: subUrlsGo repl 0 rest

/-- `_URL_RE.sub("[link]", text)` from `preprocess._simplify_urls`. -/
def simplify_urls (text : List Char) : List Char := subUrlsGo "[link]".toList 0 text

/-- `_URL.sub("", text)` from `actions._split_sentences`. -/
def strip_urls (text : List Char) : List Char := subUrlsGo [] 0 text

/-- `_WHITESPACE.sub(" ", text)`: every maximal whitespace run becomes one
space (`inRun` records that the previous character was whitespace, so the
single space for this run has already been emitted). -/
def collapseGo (inRun : Bool) : List Char → List Char
  | [] => []
  | c :: rest =>
      if isWs c then
        if inRun then collapseGo true rest
        else ' ' :: collapseGo true rest
      else c :: collapseGo false rest

def collapse_ws (l : List Char) : List Char := collapseGo false l

def isTermPunct (c : Char) : Bool := c = '.' || c = '?' || c = '!'

/-- State of the `re.split` scan: inside no separator, inside a
`(?<=[\\.\\?!])\\s+` separator run, or inside a `\\n+` separator run. -/
inductive SplitMode where
  | normal | wsRun | nlRun
deriving DecidableEq

def prevPunct : Option Char → Bool
  | some p => isTermPunct p
  | none => false

/-- Scanner for `re.split(r"(?<=[\\.\\?!])\\s+|\\n+", text)`: `prev` is the
character before the scan position (for the lookbehind) and `acc` the
current fragment in reverse.  At each position a current separator run is
extended if it can be; otherwise the first alternative (whitespace run
preceded by terminal punctuation) is tried, then the newline-run
alternative, else the character joins the current fragment. -/
def reSplitGo (mode : SplitMode) (prev : Option Char) (acc : List Char) :
    List Char → List (List Char)
  | [] => [acc.reverse]
  | c :: rest =>
      if mode = .wsRun && isWs c then reSplitGo .wsRun (some c) acc rest
      else if mode = .nlRun && c = '\n' then reSplitGo .nlRun (some c) acc rest
      else if isWs c && prevPunct prev then
        acc.reverse :: reSplitGo .wsRun (some c) [] rest
      else if c = '\n' then
        acc.reverse :: reSplitGo .nlRun (some c) [] rest
      else reSplitGo .normal (some c) (c :: acc) rest

/-- Embedding of `mailminder.actions._split_sentences`. -/
def split_sentences (text : List Char) : List (List Char) :=
  let t := strip_urls text
  let t := collapse_ws t
  let t := t.map (fun c => if c = '\r' then '\n' else c)
  (reSplitGo .normal none [] t).filterMap
    (fun p => if p ≠ [] ∧ 4 ≤ (pyStrip p).length then some (pyStrip p) else none)

/-- Apostrophe character (code point 39). -/
def apos : Char := Char.ofNat 39

/-- Python's substring test `needle in hay`. -/
def isSub (needle : List Char) : List Char → Bool
  | [] => needle.isEmpty
  | l@(_ :: rest) => needle.isPrefixOf l || isSub needle rest

/-- `actions._ACTION_TRIGGERS`. -/
def action_triggers : List (List Char) :=
  ["please", "could you", "can you", "would you", "let me know", "follow up",
   "circle back", "confirm", "review", "share", "send", "provide", "update",
   "schedule", "book", "set up", "arrange", "reply", "respond", "sign",
   "approve", "by eod", "by tomorrow", "by monday", "by friday", "today",
   "this week", "deadline", "due", "asap", "urgent", "attach", "attachment",
   "draft", "doc", "invoice", "payment", "pay", "ticket", "bug", "fix",
   "implement"].map String.toList

/-- `actions._HIGH_HINTS`. -/
def high_hints : List (List Char) :=
  ["asap", "urgent", "by eod", "deadline", "due ", "tomorrow"].map String.toList

/-- Python `re` word character (`\w`), ASCII fragment. -/
def isWordChar (c : Char) : Bool := c.isAlphanum || c = '_'

/-- `True` when the pattern may continue with a word boundary here: the end
of the string or a non-word character (all patterns checked this way end
in a word character). -/
def bndAfter : List Char → Bool
  | [] => true
  | c :: _ => !isWordChar c

/-- `re.match(w ++ "\b", s)`-style test for a literal word `w` ending in a
word character: `w` is a prefix of `s` and a boundary follows. -/
def startsWithWordB (w s : List Char) : Bool :=
  w.isPrefixOf s && bndAfter (s.drop w.length)

/-- The alternatives of `^(please|let\'?s|kindly)\b` (the optional
apostrophe in `let\'?s` yields both spellings). -/
def imperative_openers : List (List Char) :=
  ["please".toList, ['l', 'e', 't', 's'], ['l', 'e', 't', apos, 's'], "kindly".toList]

/-- `actions._QUOTED_LINE` (`^\s*>+`) used via `.match`. -/
def quoted_line (s : List Char) : Bool :=
  match s.dropWhile isWs with
  | '>' :: _ => true
  | _ => false

/-- Embedding of `mailminder.actions._is_candidate`.  Note the pleasantry
suffix check runs on `s` itself (case-sensitive), while the opener,
trigger, question and header checks run on `s.lower()`. -/
def is_candidate (s : List Char) : Bool :=
  let s_low := toLowerL s
  if s.length < 8 then false
  else if s.count '@' > 2 then false
  else if ["thanks", "thank you", "best"].any (fun w => w.toList.isSuffixOf s) then false
  else if ["On ", "From:", "To:", "Subject:"].any (fun w => w.toList.isPrefixOf s) then false
  else if quoted_line s then false
  else if imperative_openers.any (fun w => startsWithWordB w s_low) then true
  else if action_triggers.any (fun t => isSub t s_low) then true
  else if "?".toList.isSuffixOf s_low &&
      (["can", "could", "would", "will", "do you", "are you"].any
        (fun k => isSub k.toList s_low)) then true
  else if ["action item", "next step", "todo", "to-do"].any
      (fun w => w.toList.isPrefixOf s_low) then true
  else false

/-- `True` when a match of a word-boundary-delimited pattern (tested by
`p`, whose matches start with a word character) begins at some position
of the list; `prev` is the character before the current position. -/
def searchBnd (p : List Char → Bool) : Option Char → List Char → Bool
  | _, [] => false
  | prev, c :: rest =>
      ((match prev with | none => true | some q => !isWordChar q) && p (c :: rest))
        || searchBnd p (some c) rest

/-- The alternatives of `\b(?:mon|tue|wed|thu|fri|sat|sun|today|tomorrow)\b`. -/
def weekday_words : List (List Char) :=
  ["mon", "tue", "wed", "thu", "fri", "sat", "sun", "today", "tomorrow"].map String.toList

def weekdayAt (l : List Char) : Bool :=
  weekday_words.any (fun w => w.isPrefixOf l && bndAfter (l.drop w.length))

/-- A match of `\d{1,2}/\d{1,2}\b` starting at the head of `l` (the leading
`\b` is checked by `searchBnd`); existence over both counts of digits
matches the regex engine's backtracking. -/
def ddDateAt (l : List Char) : Bool :=
  [1, 2].any (fun k1 =>
    (l.take k1).length = k1 && (l.take k1).all Char.isDigit &&
      (match l.drop k1 with
       | '/' :: rest2 =>
           [1, 2].any (fun k2 =>
             (rest2.take k2).length = k2 && (rest2.take k2).all Char.isDigit &&
               bndAfter (rest2.drop k2))
       | _ => false))

/-- Embedding of `mailminder.actions._importance_from_text`. -/
def importance_from_text (s : List Char) : Int :=
  let s_low := toLowerL s
  if high_hints.any (fun h => isSub h s_low) then 3
  else if searchBnd weekdayAt none s_low || searchBnd ddDateAt none s_low then 2
  else 2

/-- `actions._SIG_LINE` (`^\s*--\s*$`) used via `.match`. -/
def sig_line (s : List Char) : Bool :=
  let t := s.dropWhile isWs
  "--".toList.isPrefixOf t && (t.drop 2).all isWs

/-- The line loop of `fallback_extract_from_body`: stop at a signature
delimiter, skip quoted lines. -/
def body_lines : List (List Char) → List (List Char)
  | [] => []
  | ln :: rest =>
      if sig_line ln then []
      else if quoted_line ln then body_lines rest
      else ln :: body_lines rest

/-- Scanner for Python `str.splitlines()` (the `\n`, `\r`, `\r\n` breaks
the cleaning pipeline can produce): `acc` is the current line in
reverse; a terminator at the very end of the string opens no new line. -/
def splitlinesGo (acc : List Char) : List Char → List (List Char)
  | [] => [acc.reverse]
  | ['\r'] => [acc.reverse]
  | ['\n'] => [acc.reverse]
  | ['\r', '\n'] => [acc.reverse]
  | '\r' :: '\n' :: c :: rest => acc.reverse :: splitlinesGo [] (c :: rest)
  | '\r' :: c :: rest => acc.reverse :: splitlinesGo [] (c :: rest)
  | '\n' :: c :: rest => acc.reverse :: splitlinesGo [] (c :: rest)
  | c :: rest => splitlinesGo (c :: acc) rest

/-- Embedding of Python `str.splitlines()`; the empty string has no lines. -/
def splitlines : List Char → List (List Char)
  | [] => []
  | c :: rest => splitlinesGo [] (c :: rest)

/-- Scanner for Python `str.split()` with no argument: `cur` is the
current word in reverse (empty when between words). -/
def pySplitWsGo (cur : List Char) : List Char → List (List Char)
  | [] => if cur.isEmpty then [] else [cur.reverse]
  | c :: rest =>
      if isWs c then
        if cur.isEmpty then pySplitWsGo [] rest
        else cur.reverse :: pySplitWsGo [] rest
      else pySplitWsGo (c :: cur) rest

/-- Embedding of Python `str.split()` with no argument: maximal
non-whitespace runs. -/
def pySplitWs (l : List Char) : List (List Char) := pySplitWsGo [] l

/-- The candidate loop of `fallback_extract_from_body`: dedup by lowercase
sentence, keep order, stop after the fifth item. -/
def collect_items (seen : List (List Char)) (acc : List ActionItem) :
    List (List Char) → List ActionItem
  | [] => acc.reverse
  | s :: rest =>
      if toLowerL s ∈ seen then collect_items seen acc rest
      else
        let acc' := ⟨s, importance_from_text s⟩ :: acc
        if 5 ≤ acc'.length then acc'.reverse
        else collect_items (toLowerL s :: seen) acc' rest

/-- An `ActionItem` viewed again as the raw dict
`{"title": ..., "importance": ...}` that the Python code feeds back into
`normalize_items`. -/
def itemToEntry (a : ActionItem) : RawEntry :=
  .dictVal (some a.title) none (.intVal a.importance)

/-- `"\n".join(...)` then `.strip()` applied to the surviving body lines. -/
def body_text (body : List Char) : List Char :=
  pyStrip (List.intercalate ['\n'] (body_lines (splitlines body)))

/-- The filtered sentence candidates of `fallback_extract_from_body`. -/
def candidates (body : List Char) : List (List Char) :=
  (split_sentences (body_text body)).filter is_candidate

/-- Embedding of `mailminder.actions.fallback_extract_from_body`. -/
def fallback_extract_from_body (body : List Char) : List ActionItem :=
  if body = [] then []
  else
    let items := collect_items [] [] (candidates body)
    let items :=
      if items = [] then
        match (split_sentences (body_text body)).find?
            (fun s => 6 ≤ (pySplitWs s).length) with
        | some s => [⟨s, 2⟩]
        | none => []
      else items
    normalize_items (items.map itemToEntry)

/-- Embedding of `mailminder.actions.extract_actions`; the
`summary_json.get("action_items") or []` argument is modelled by the
`action_items` list itself (a missing or falsy value becomes `[]`). -/
def extract_actions (action_items : List RawEntry) (body : List Char) : List ActionItem :=
  let norm := normalize_items action_items
  if norm = [] then fallback_extract_from_body body else norm

/-- Embedding of `preprocess._truncate` (default `limit` is
`_MAX_CHARS = 1500`). -/
def truncate (text : List Char) (limit : Nat := 1500) : List Char :=
  if text.length ≤ limit then pyStrip text
  else pyRstrip (text.take (limit - 1)) ++ ['…']

/-- The HTML-detection step of `clean_email`:
`"<html" in body_clean.lower() or "</" in body_clean[:200]`, in which case
the external `_html_to_text` conversion (parameter `html_to_text`) runs. -/
def html_step (html_to_text : List Char → List Char) (body_clean : List Char) : List Char :=
  if isSub "<html".toList (toLowerL body_clean) || isSub "</".toList (body_clean.take 200)
  then html_to_text body_clean
  else body_clean

/-- The body pipeline of `clean_email` before truncation: reply parsing
(external `EmailReplyParser.parse_reply`, parameter `parse_reply`), HTML
conversion, URL simplification. -/
def pre_trunc_body (parse_reply html_to_text : List Char → List Char)
    (body : List Char) : List Char :=
  simplify_urls (html_step html_to_text (parse_reply body))

/-- Result shape of `clean_email`. -/
structure CleanedEmail where
  subject : List Char
  body : List Char
deriving DecidableEq

/-- Embedding of `preprocess.clean_email`.  The `headers` dict is an
association list; `None` and `{}` both behave as the empty list under
Python truthiness. -/
def clean_email (parse_reply html_to_text : List Char → List Char)
    (subject body : List Char) (headers : List (List Char × List Char)) : CleanedEmail :=
  let body_clean := truncate (pre_trunc_body parse_reply html_to_text body)
  let subject_clean := if pyStrip subject ≠ [] then pyStrip subject else "(no subject)".toList
  let subject_clean :=
    if headers ≠ [] then
      let sender := (headers.lookup "From".toList).getD []
      if sender ≠ [] then sender ++ ": ".toList ++ subject_clean else subject_clean
    else subject_clean
  ⟨subject_clean, body_clean⟩

/-- One step of the dict comprehension `{h["name"]: h["value"] for h in
headers}`: a repeated name replaces the stored value in place, a new name
is appended (Python dicts keep first-insertion order, last value wins). -/
def dictUpsert (d : List (List Char × List Char)) (kv : List Char × List Char) :
    List (List Char × List Char) :=
  if d.any (fun p => p.1 = kv.1) then
    d.map (fun p => if p.1 = kv.1 then (p.1, kv.2) else p)
  else d ++ [kv]

/-- Embedding of the map built by `preprocess._headers_to_dict` for a given
header list (the pure comprehension; the module-level cache is discussed
with the claims about it). -/
def headers_to_dict (headers : List (List Char × List Char)) :
    List (List Char × List Char) :=
  headers.foldl dictUpsert []

/-- A Gmail MIME part as read by `preprocess._decode_part`: the `mimeType`
key (missing defaults to `""`), the `body.data` payload, nested `parts`. -/
inductive MimePart where
  | mk (mimeType : List Char) (data : Option (List Char)) (parts : List MimePart)

def part_mime : MimePart → List Char
  | .mk m _ _ => m

def part_data : MimePart → Option (List Char)
  | .mk _ d _ => d

def part_children : MimePart → List MimePart
  | .mk _ _ ps => ps

/-- `data and (mime_type == "text/plain" or mime_type.startswith("text/"))`:
the part has a truthy payload and a textual MIME type. -/
def is_hit (p : MimePart) : Bool :=
  (match part_data p with
   | some d => !d.isEmpty
   | none => false) &&
    (part_mime p = "text/plain".toList || "text/".toList.isPrefixOf (part_mime p))

/-- The decode of one part's payload: the external
`base64.urlsafe_b64decode(...).decode("utf-8", errors="replace")` is the
parameter `dec`; `none` models the `except` branch, which returns `""`. -/
def decode_value (dec : List Char → Option (List Char)) (p : MimePart) : List Char :=
  match part_data p with
  | some d => (dec d).getD []
  | none => []

mutual
/-- Embedding of `preprocess._decode_part`: if this part is a textual part
with payload, return its decode (empty on failure); otherwise scan the
sub-parts in order and return the first non-empty result, else `""`. -/
def decode_part (dec : List Char → Option (List Char)) : MimePart → List Char
  | .mk m d ps =>
      if is_hit (.mk m d ps) then decode_value dec (.mk m d ps)
      else decode_parts dec ps

/-- The `for sub in part.get("parts", [])` loop of `_decode_part`. -/
def decode_parts (dec : List Char → Option (List Char)) : List MimePart → List Char
  | [] => []
  | q :: rest =>
      let t := decode_part dec q
      if t.isEmpty then decode_parts dec rest else t
end

mutual
/-- Pre-order (document-order) listing of a part tree, the order in which
`_decode_part` first examines each part. -/
def preorder : MimePart → List MimePart
  | .mk m d ps => .mk m d ps :: preorder_list ps

def preorder_list : List MimePart → List MimePart
  | [] => []
  | q :: rest => preorder q ++ preorder_list rest
end

/-- Decimal digits to a natural number. -/
def digitsToNat (ds : List Char) : Nat :=
  ds.foldl (fun a c => a * 10 + (c.toNat - '0'.toNat)) 0

/-- Embedding of Python `int(s)` on a string: optional surrounding
whitespace, optional sign, one or more digits (`none` models
`ValueError`). -/
def py_int (l : List Char) : Option Int :=
  let t := pyStrip l
  match t with
  | '-' :: ds =>
      if ds ≠ [] ∧ ds.all Char.isDigit then some (-(digitsToNat ds : Int)) else none
  | '+' :: ds =>
      if ds ≠ [] ∧ ds.all Char.isDigit then some (digitsToNat ds : Int) else none
  | ds =>
      if ds ≠ [] ∧ ds.all Char.isDigit then some (digitsToNat ds : Int) else none

/-- Embedding of `preprocess._parse_received_at`.  The external
`email.utils.parsedate_to_datetime` conversion to epoch milliseconds is
the parameter `parse_date` (`none` models its exceptions), and the
`datetime.now` last resort is the parameter `now_ms`. -/
def parse_received_at (parse_date : List Char → Option Int) (now_ms : Int)
    (internal_date : Option (List Char))
    (headers : List (List Char × List Char)) : Int :=
  let fallback :=
    let dt_hdr := firstTruthy (headers.lookup "Date".toList) (headers.lookup "date".toList)
    if dt_hdr ≠ [] then
      match parse_date dt_hdr with
      | some ms => ms
      | none => now_ms
    else now_ms
  match internal_date with
  | some s =>
      if s ≠ [] then
        match py_int s with
        | some n => n
        | none => fallback
      else fallback
  | none => fallback

/-- The `payload` dict of a Gmail message: the keys `clean_gmail_message`
reads from it (`headers`) plus the part fields walked by `_decode_part`.
A missing payload behaves as `{}`: no headers, no mime type, no data, no
sub-parts. -/
structure GmailPayload where
  headers : List (List Char × List Char)
  part : MimePart

/-- A raw Gmail `users.messages.get` response, restricted to the keys
`clean_gmail_message` reads.  All keys are read with `.get` except `id`,
which is read with `msg["id"]` and therefore must be present for the
function to return. -/
structure GmailMsg where
  id : Option (List Char)
  threadId : Option (List Char)
  payload : Option GmailPayload
  snippet : Option (List Char)
  labelIds : Option (List (List Char))
  internalDate : Option (List Char)
  historyId : Option (List Char)

/-- The record returned by `clean_gmail_message`. -/
structure CleanedGmail where
  id : List Char
  threadId : Option (List Char)
  subject : List Char
  sender : List Char
  internalDate : List Char
  body : List Char
  headers : List (List Char × List Char)
  is_read : Bool
  gmail_permalink : List Char
  labels : List (List Char)
  historyId : Option (List Char)

/-- Embedding of `preprocess.clean_gmail_message`.  The result is `none`
exactly when `msg["id"]` would raise `KeyError`; all external library
calls are parameters as in `clean_email`, `decode_part` and
`parse_received_at`. -/
def clean_gmail_message (parse_reply html_to_text : List Char → List Char)
    (dec : List Char → Option (List Char)) (parse_date : List Char → Option Int)
    (now_ms : Int) (msg : GmailMsg) : Option CleanedGmail :=
  let payload := msg.payload.getD ⟨[], .mk [] none []⟩
  let headers := headers_to_dict payload.headers
  let subject := (headers.lookup "Subject".toList).getD []
  let sender := (headers.lookup "From".toList).getD []
  let body_raw :=
    let d := decode_part dec payload.part
    if d ≠ [] then d else msg.snippet.getD []
  let cleaned := clean_email parse_reply html_to_text subject body_raw headers
  let labels := msg.labelIds.getD []
  let is_read := !(labels.contains "UNREAD".toList)
  match msg.id with
  | none => none
  | some gid =>
      let internal_ms := parse_received_at parse_date now_ms msg.internalDate headers
      some
        { id := gid
          threadId := msg.threadId
          subject := cleaned.subject
          sender := sender
          internalDate := (toString internal_ms).toList
          body := cleaned.body
          headers := headers
          is_read := is_read
          gmail_permalink := "https://mail.google.com/mail/u/0/#inbox/".toList ++ gid
          labels := labels
          historyId := msg.historyId }

/-! ## Basic lemmas about the string primitives -/

theorem pyLstrip_length_le (l : List Char) : (pyLstrip l).length ≤ l.length :=
  (List.dropWhile_suffix isWs (l := l)).sublist.length_le

theorem pyRstrip_length_le (l : List Char) : (pyRstrip l).length ≤ l.length := by
  unfold pyRstrip
  have h := (List.dropWhile_suffix isWs (l := l.reverse)).sublist.length_le
  simpa using h

theorem pyStrip_length_le (l : List Char) : (pyStrip l).length ≤ l.length :=
  le_trans (pyRstrip_length_le (pyLstrip l)) (pyLstrip_length_le l)

theorem truncate_length_le (t : List Char) : (truncate t).length ≤ 1500 := by
  unfold truncate
  split
  · exact le_trans (pyStrip_length_le t) (by assumption)
  · have h1 : (pyRstrip (t.take (1500 - 1))).length ≤ 1499 := by
      have := pyRstrip_length_le (t.take (1500 - 1))
      have h2 : (t.take (1500 - 1)).length ≤ 1499 := by
        simp
      omega
    simp only [List.length_append, List.length_cons, List.length_nil]
    omega

theorem truncate_getLast (t : List Char) (h : 1500 < t.length) :
    (truncate t).getLast? = some '…' := by
  unfold truncate
  rw [if_neg (by omega)]
  exact List.getLast?_concat _

/-- Claim C2: for every input body (and any behaviour of the external
reply parser and HTML converter), the cleaned body of `clean_email` has
length at most 1500 characters, and whenever the pre-truncation text
exceeds 1500 characters the cleaned body ends with the ellipsis
character. -/
theorem C2_truncation_bound (parse_reply html_to_text : List Char → List Char)
    (subject body : List Char) (headers : List (List Char × List Char)) :
    (clean_email parse_reply html_to_text subject body headers).body.length ≤ 1500 ∧
      (1500 < (pre_trunc_body parse_reply html_to_text body).length →
        (clean_email parse_reply html_to_text subject body headers).body.getLast? =
          some '…') := by
  have hbody : (clean_email parse_reply html_to_text subject body headers).body =
      truncate (pre_trunc_body parse_reply html_to_text body) := rfl
  rw [hbody]
  exact ⟨truncate_length_le _, truncate_getLast _⟩

/-- A reply parser producing 1501 characters, used to exercise
`C2_truncation_bound` at a concrete input. -/
def witReply : List Char → List Char := fun _ => List.replicate 1501 'x'

set_option maxRecDepth 100000 in
/-- Witness for `C2_truncation_bound` at a concrete over-long body. -/
theorem C2_truncation_bound_witness :
    (clean_email witReply id [] [] []).body.length ≤ 1500 ∧
      (clean_email witReply id [] [] []).body.getLast? = some '…' :=
  ⟨(C2_truncation_bound witReply id [] [] []).1,
    (C2_truncation_bound witReply id [] [] []).2 (by decide)⟩

/-! ## Deduplication (claims C3 and C8) -/

/-- Spec-side description of the dedup pass, written from the spec's
words for comparison with the code: keep the first occurrence of each
case-insensitive title, drop every later duplicate entirely. -/
def dedupFirstWins : List ActionItem → List ActionItem
  | [] => []
  | a :: rest => a :: dedupFirstWins (rest.filter (fun b => keyOf b != keyOf a))
termination_by l => l.length
decreasing_by
  simp only [List.length_cons, Nat.lt_succ_iff]
  apply List.length_filter_le

theorem dedupBy_eq_dedupFirstWins (l : List ActionItem) :
    ∀ seen, dedupBy seen l =
      dedupFirstWins (l.filter (fun b => decide (keyOf b ∉ seen))) := by
  induction l with
  | nil => intro seen; simp [dedupBy, dedupFirstWins]
  | cons n rest ih =>
      intro seen
      by_cases hk : keyOf n ∈ seen
      · rw [dedupBy, if_pos hk, List.filter_cons, if_neg (by simp [hk]), ih]
      · rw [dedupBy, if_neg hk, List.filter_cons, if_pos (by simp [hk])]
        simp only [dedupFirstWins]
        rw [ih (keyOf n :: seen), List.filter_filter]
        have hfil : List.filter (fun b => decide (keyOf b ∉ keyOf n :: seen)) rest =
            List.filter (fun a => keyOf a != keyOf n && decide (keyOf a ∉ seen)) rest := by
          apply List.filter_congr
          intro b _
          by_cases h1 : keyOf b = keyOf n <;> by_cases h2 : keyOf b ∈ seen <;>
            simp [h1, h2]
        rw [hfil]

/-- Claim C3: `normalize_items` deduplicates case-insensitively on the
trimmed title, keeping the first occurrence in input order and dropping
later duplicates together with their importance (it agrees with the
first-occurrence-wins dedup of its pre-dedup records); in particular
`["Book flight", {"title": "book flight", "importance": "high"}]`
normalizes to exactly `[{"title": "Book flight", "importance": 2}]`. -/
theorem C3_dedup_first_wins :
    (∀ items : List RawEntry,
      normalize_items items = dedupFirstWins (items.filterMap normEntry)) ∧
      normalize_items [.strVal "Book flight".toList,
        .dictVal (some "book flight".toList) none (.strVal "high".toList)] =
        [⟨"Book flight".toList, 2⟩] := by
  constructor
  · intro items
    rw [normalize_items, dedupBy_eq_dedupFirstWins]
    congr 1
    simp
  · decide

theorem dropWhile_idem (p : Char → Bool) (l : List Char) :
    (l.dropWhile p).dropWhile p = l.dropWhile p := by
  induction l with
  | nil => rfl
  | cons c cs ih =>
      by_cases hc : p c
      · simp [List.dropWhile_cons, hc, ih]
      · simp [List.dropWhile_cons, hc]

theorem dropWhile_eq_self_of_prefix (p : Char → Bool) (l m : List Char)
    (hl : l.dropWhile p = l) (hm : m <+: l) : m.dropWhile p = m := by
  cases m with
  | nil => rfl
  | cons c cs =>
      cases l with
      | nil =>
          obtain ⟨t, ht⟩ := hm
          simp at ht
      | cons d ds =>
          obtain ⟨t, ht⟩ := hm
          have hc : c = d := by
            have := congrArg (fun x => x.head?) ht
            simpa using this
          subst hc
          by_cases hd : p c
          · exfalso
            rw [List.dropWhile_cons, if_pos hd] at hl
            have hlen := congrArg List.length hl
            have hle := (List.dropWhile_suffix p (l := ds)).sublist.length_le
            simp at hlen
            omega
          · rw [List.dropWhile_cons, if_neg hd]

theorem pyRstrip_prefix_of_self (l : List Char) : pyRstrip l <+: l := by
  unfold pyRstrip
  obtain ⟨s, hs⟩ := List.dropWhile_suffix isWs (l := l.reverse)
  refine ⟨s.reverse, ?_⟩
  have h := congrArg List.reverse hs
  simpa [List.reverse_append] using h

theorem pyLstrip_pyStrip (l : List Char) : pyLstrip (pyStrip l) = pyStrip l :=
  dropWhile_eq_self_of_prefix isWs (pyLstrip l) (pyStrip l)
    (dropWhile_idem isWs l) (pyRstrip_prefix_of_self (pyLstrip l))

theorem pyRstrip_idem (x : List Char) : pyRstrip (pyRstrip x) = pyRstrip x := by
  unfold pyRstrip
  rw [List.reverse_reverse, dropWhile_idem]

theorem pyStrip_idem (l : List Char) : pyStrip (pyStrip l) = pyStrip l := by
  have h1 : pyStrip (pyStrip l) = pyRstrip (pyLstrip (pyStrip l)) := rfl
  rw [h1, pyLstrip_pyStrip]
  show pyRstrip (pyRstrip (pyLstrip l)) = pyStrip l
  rw [pyRstrip_idem]
  rfl

/-- The shape of every record `normalize_items` outputs: title already
stripped and non-empty, importance in `[0, 3]`. -/
def goodItem (a : ActionItem) : Prop :=
  pyStrip a.title = a.title ∧ a.title ≠ [] ∧ 0 ≤ a.importance ∧ a.importance ≤ 3

theorem normImp_bounds (v : ImpVal) : 0 ≤ normImp v ∧ normImp v ≤ 3 := by
  cases v with
  | noneVal => simp only [normImp]; omega
  | intVal i =>
      simp only [normImp]
      split <;> omega
  | strVal s =>
      simp only [normImp]
      split <;> omega

theorem normEntry_good (e : RawEntry) (a : ActionItem) (h : normEntry e = some a) :
    goodItem a := by
  cases e with
  | strVal s =>
      simp only [normEntry] at h
      split at h
      · cases h
      · cases h
        exact ⟨pyStrip_idem s, by assumption, by norm_num, by norm_num⟩
  | dictVal title task imp =>
      simp only [normEntry] at h
      split at h
      · cases h
      · cases h
        exact ⟨pyStrip_idem _, by assumption,
          (normImp_bounds imp).1, (normImp_bounds imp).2⟩
  | otherVal => cases h

theorem mem_dedupBy (l : List ActionItem) (a : ActionItem) :
    ∀ seen, a ∈ dedupBy seen l → a ∈ l := by
  induction l with
  | nil => intro seen h; simp [dedupBy] at h
  | cons n rest ih =>
      intro seen h
      rw [dedupBy] at h
      split at h
      · exact List.mem_cons_of_mem _ (ih _ h)
      · rcases List.mem_cons.mp h with h1 | h2
        · simp [h1]
        · exact List.mem_cons_of_mem _ (ih _ h2)

theorem normEntry_itemToEntry (a : ActionItem) (h : goodItem a) :
    normEntry (itemToEntry a) = some a := by
  obtain ⟨hstrip, hne, h0, h3⟩ := h
  have hft : firstTruthy (some a.title) none = a.title := by
    simp only [firstTruthy, optTruthy]
    rw [if_neg hne]
  simp only [itemToEntry, normEntry, hft, hstrip]
  rw [if_neg hne]
  have himp : normImp (.intVal a.importance) = a.importance := by
    simp only [normImp]
    rw [if_pos ⟨h0, h3⟩]
  rw [himp]

theorem filterMap_map_id (out : List ActionItem)
    (h : ∀ a ∈ out, normEntry (itemToEntry a) = some a) :
    (out.map itemToEntry).filterMap normEntry = out := by
  induction out with
  | nil => rfl
  | cons a rest ih =>
      simp only [List.map_cons, List.filterMap_cons, h a (by simp)]
      rw [ih (fun b hb => h b (by simp [hb]))]

theorem dedupBy_keys (l : List ActionItem) :
    ∀ seen, ((dedupBy seen l).map keyOf).Nodup ∧
      ∀ a ∈ dedupBy seen l, keyOf a ∉ seen := by
  induction l with
  | nil => intro seen; simp [dedupBy]
  | cons n rest ih =>
      intro seen
      rw [dedupBy]
      split
      · exact ih seen
      · rename_i hk
        obtain ⟨ihn, ihs⟩ := ih (keyOf n :: seen)
        refine ⟨?_, ?_⟩
        · simp only [List.map_cons, List.nodup_cons]
          refine ⟨?_, ihn⟩
          intro hmem
          obtain ⟨a, ha, hae⟩ := List.mem_map.mp hmem
          have := ihs a ha
          simp [hae] at this
        · intro a ha
          rcases List.mem_cons.mp ha with h1 | h2
          · subst h1; exact hk
          · intro hc
            exact ihs a h2 (List.mem_cons_of_mem _ hc)

theorem dedupBy_eq_self (l : List ActionItem) :
    ∀ seen, (∀ a ∈ l, keyOf a ∉ seen) → ((l.map keyOf).Nodup) →
      dedupBy seen l = l := by
  induction l with
  | nil => intro seen _ _; rfl
  | cons n rest ih =>
      intro seen hseen hnodup
      rw [dedupBy, if_neg (hseen n (by simp))]
      simp only [List.map_cons, List.nodup_cons] at hnodup
      congr 1
      apply ih
      · intro a ha
        simp only [List.mem_cons, not_or]
        refine ⟨?_, hseen a (by simp [ha])⟩
        intro he
        exact hnodup.1 (List.mem_map.mpr ⟨a, ha, he⟩)
      · exact hnodup.2

/-- Claim C8: `normalize_items` is idempotent — feeding its own output
(viewed again as raw `{"title", "importance"}` dict entries) back in
returns the same list of titles, importances and order. -/
theorem C8_normalize_items_idempotent (items : List RawEntry) :
    normalize_items ((normalize_items items).map itemToEntry) = normalize_items items := by
  have hgood : ∀ a ∈ normalize_items items, goodItem a := by
    intro a ha
    have hmem := mem_dedupBy _ _ _ ha
    obtain ⟨e, he, heq⟩ := List.mem_filterMap.mp hmem
    exact normEntry_good e a heq
  show dedupBy [] (((normalize_items items).map itemToEntry).filterMap normEntry) =
    normalize_items items
  rw [filterMap_map_id _ (fun a ha => normEntry_itemToEntry a (hgood a ha))]
  obtain ⟨hnd, _⟩ := dedupBy_keys (items.filterMap normEntry) []
  exact dedupBy_eq_self _ [] (by simp) hnd

/-! ## Claim C1: precedence of model-supplied items -/

/-- Counterexample to claim C1 as stated: `action_items = [" "]` is a
non-empty list whose single entry normalizes away, and `extract_actions`
then does consult the body — it returns the body-derived item instead of
the (empty) normalized form of the supplied list. -/
theorem C1_cex :
    normalize_items [RawEntry.strVal [' ']] = [] ∧
      extract_actions [RawEntry.strVal [' ']] "Please review the doc.".toList =
        [⟨"Please review the doc.".toList, 2⟩] := by
  constructor
  · decide
  · decide

/-- Claim C1 (amended): whenever the normalized form of the supplied
`action_items` list is non-empty, `extract_actions` returns exactly that
normalized form and the body is never consulted; only when every entry
normalizes away does the body fallback run. -/
theorem C1_precedence (items : List RawEntry) (body : List Char)
    (h : normalize_items items ≠ []) :
    extract_actions items body = normalize_items items := by
  simp only [extract_actions]
  rw [if_neg h]

/-- Witness for `C1_precedence` at a concrete input. -/
theorem C1_precedence_witness :
    extract_actions [RawEntry.strVal "Book flight".toList] "Please review the doc.".toList =
      normalize_items [RawEntry.strVal "Book flight".toList] :=
  C1_precedence _ _ (by decide)

/-! ## Claim C4: the two-sentence scenario -/

def c4_body : List Char := "Please review the attached doc by Friday. Thanks.".toList

def c4_title : List Char := "Please review the attached doc by Friday.".toList

/-- Counterexample to claim C4 as stated: extraction on the scenario body
does not return the claimed item of importance 3 ("by Friday" contains
no high-urgency hint, and "fri"/"friday" fails the `\b`-delimited
weekday pattern, so the score is the default 2). -/
theorem C4_cex : extract_actions [] c4_body ≠ [⟨c4_title, 3⟩] := by decide

/-- Claim C4 (amended): extraction with no model items on the body
`"Please review the attached doc by Friday. Thanks."` yields exactly one
item, the first sentence, with importance 2; the second sentence is
excluded. -/
theorem C4_scenario : extract_actions [] c4_body = [⟨c4_title, 2⟩] := by decide

/-! ## Claim C6: sentence segmentation on hard line breaks -/

/-- Claim C6 evaluated at the failing input `"abcd\nefgh"`: the segmenter
collapses every whitespace run — including the newline — to a single
space before splitting, so the `\n+` split alternative can never fire
and the two fragments come back as ONE sentence `"abcd efgh"`, not two,
despite the code's own `# preserve hard breaks as sentence cuts`
comment. -/
theorem C6_newline_collapsed :
    split_sentences "abcd\nefgh".toList = ["abcd efgh".toList] := by decide

/-! ## Claim C7: footer rejection -/

def c7_body : List Char := "one two three a@a b@b c@c".toList

/-- Counterexample to claim C7 as stated: a sentence with three `@`s
passes no candidate filter, so the zero-candidate fallback picks it as
the first sentence with at least 6 words and it appears in the extracted
list. -/
theorem C7_cex :
    fallback_extract_from_body c7_body = [⟨c7_body, 2⟩] ∧ 2 < c7_body.count '@' := by
  constructor
  · decide
  · decide

theorem candidate_amp_le (s : List Char) (h : is_candidate s = true) :
    s.count '@' ≤ 2 := by
  by_contra hgt
  simp only [is_candidate] at h
  split at h
  · simp at h
  · split at h
    · simp at h
    · omega

theorem firstTruthy_some_none (t : List Char) : firstTruthy (some t) none = t := by
  simp only [firstTruthy, optTruthy]
  split
  · rename_i h
    exact h.symm
  · rfl

theorem pyStrip_sublist (l : List Char) : List.Sublist (pyStrip l) l :=
  ((pyRstrip_prefix_of_self (pyLstrip l)).sublist).trans (List.dropWhile_suffix isWs).sublist

theorem mem_normalize_titles (its : List ActionItem) (a : ActionItem)
    (h : a ∈ normalize_items (its.map itemToEntry)) :
    ∃ j ∈ its, a.title = pyStrip j.title := by
  have hmem := mem_dedupBy _ _ _ h
  obtain ⟨e, he, heq⟩ := List.mem_filterMap.mp hmem
  obtain ⟨j, hj, hje⟩ := List.mem_map.mp he
  subst hje
  refine ⟨j, hj, ?_⟩
  simp only [itemToEntry, normEntry, firstTruthy_some_none] at heq
  split at heq
  · cases heq
  · cases heq
    rfl

theorem collect_items_acc_ne (cs : List (List Char)) :
    ∀ seen acc, acc ≠ [] → collect_items seen acc cs ≠ [] := by
  induction cs with
  | nil =>
      intro seen acc hacc
      simp only [collect_items]
      simpa using hacc
  | cons s rest ih =>
      intro seen acc hacc
      simp only [collect_items]
      split
      · exact ih _ _ hacc
      · split
        · simp
        · exact ih _ _ (by simp)

theorem collect_items_start (s : List Char) (rest : List (List Char))
    (seen : List (List Char)) (hs : toLowerL s ∉ seen) :
    collect_items seen [] (s :: rest) ≠ [] := by
  simp only [collect_items]
  rw [if_neg hs]
  split
  · simp
  · exact collect_items_acc_ne _ _ _ (by simp)

theorem mem_collect_items (cs : List (List Char)) :
    ∀ seen acc it, it ∈ collect_items seen acc cs →
      it ∈ acc ∨ ∃ s ∈ cs, it = ⟨s, importance_from_text s⟩ := by
  induction cs with
  | nil =>
      intro seen acc it h
      simp only [collect_items, List.mem_reverse] at h
      exact Or.inl h
  | cons s rest ih =>
      intro seen acc it h
      simp only [collect_items] at h
      split at h
      · rcases ih _ _ _ h with h1 | ⟨s', hs', he⟩
        · exact Or.inl h1
        · exact Or.inr ⟨s', List.mem_cons_of_mem _ hs', he⟩
      · split at h
        · rw [List.mem_reverse] at h
          rcases List.mem_cons.mp h with h1 | h2
          · exact Or.inr ⟨s, by simp, h1⟩
          · exact Or.inl h2
        · rcases ih _ _ _ h with h1 | ⟨s', hs', he⟩
          · rcases List.mem_cons.mp h1 with h2 | h3
            · exact Or.inr ⟨s, by simp, h2⟩
            · exact Or.inl h3
          · exact Or.inr ⟨s', List.mem_cons_of_mem _ hs', he⟩

/-- Claim C7 (amended): whenever at least one sentence passes the
candidate filter, every extracted item's title has at most 2 `@`
characters; only the zero-candidate first-long-sentence fallback can
return a sentence with more. -/
theorem C7_footer_rejection (body : List Char) (hc : candidates body ≠ []) :
    ∀ it ∈ fallback_extract_from_body body, it.title.count '@' ≤ 2 := by
  intro it hit
  by_cases hb : body = []
  · rw [hb] at hit
    simp [fallback_extract_from_body] at hit
  · obtain ⟨s0, rest0, hcons⟩ := List.exists_cons_of_ne_nil hc
    have hne : collect_items [] [] (candidates body) ≠ [] := by
      rw [hcons]
      exact collect_items_start _ _ _ (by simp)
    simp only [fallback_extract_from_body, if_neg hb, if_neg hne] at hit
    obtain ⟨j, hj, hjt⟩ := mem_normalize_titles _ _ hit
    rcases mem_collect_items _ _ _ _ hj with h1 | ⟨s, hs, he⟩
    · simp at h1
    · have hcand : is_candidate s = true := (List.mem_filter.mp hs).2
      have hle := candidate_amp_le s hcand
      have hsub := List.Sublist.count_le (pyStrip_sublist j.title) '@'
      rw [hjt, he]
      simp only at hsub ⊢
      rw [he] at hjt
      calc (pyStrip s).count '@' ≤ s.count '@' :=
            List.Sublist.count_le (pyStrip_sublist s) '@'
        _ ≤ 2 := hle

/-- Witness for `C7_footer_rejection` at a concrete input. -/
theorem C7_footer_rejection_witness :
    (⟨"Please review the doc.".toList, 2⟩ : ActionItem).title.count '@' ≤ 2 :=
  C7_footer_rejection "Please review the doc.".toList (by decide) _ (by decide)

/-! ## Claim C5: the MIME walk of `_decode_part` -/

theorem decode_no_hit (dec : List Char → Option (List Char)) :
    ∀ p : MimePart, (∀ q ∈ preorder p, is_hit q = false) → decode_part dec p = [] := by
  refine preorder.induct
    (fun p => (∀ q ∈ preorder p, is_hit q = false) → decode_part dec p = [])
    (fun ps => (∀ q ∈ preorder_list ps, is_hit q = false) → decode_parts dec ps = []) ?_ ?_ ?_
  · intro m d ps ih hno
    have hroot : is_hit (.mk m d ps) = false := hno _ (by simp [preorder])
    simp only [decode_part, hroot, Bool.false_eq_true, if_false]
    apply ih
    intro q hq
    exact hno q (by simp [preorder, hq])
  · intro _
    rfl
  · intro q rest ihq ihrest hno
    have hq : decode_part dec q = [] := ihq (fun r hr => hno r (by
      simp only [preorder_list, List.mem_append]
      exact Or.inl hr))
    simp only [decode_parts, hq, List.isEmpty_nil, if_true]
    apply ihrest
    intro r hr
    exact hno r (by
      simp only [preorder_list, List.mem_append]
      exact Or.inr hr)

theorem decode_part_find (dec : List Char → Option (List Char)) :
    ∀ p : MimePart, ∀ n, (preorder p).find? is_hit = some n →
      decode_value dec n ≠ [] → decode_part dec p = decode_value dec n := by
  refine preorder.induct
    (fun p => ∀ n, (preorder p).find? is_hit = some n →
      decode_value dec n ≠ [] → decode_part dec p = decode_value dec n)
    (fun ps => ∀ n, (preorder_list ps).find? is_hit = some n →
      decode_value dec n ≠ [] → decode_parts dec ps = decode_value dec n) ?_ ?_ ?_
  · intro m d ps ih n hfind hne
    by_cases hr : is_hit (.mk m d ps) = true
    · rw [preorder, List.find?_cons_of_pos _ hr] at hfind
      cases hfind
      simp [decode_part, hr]
    · rw [preorder, List.find?_cons_of_neg _ (by simpa using hr)] at hfind
      have hrec := ih n hfind hne
      simp [decode_part, hr, hrec]
  · intro n hfind _
    simp [preorder_list] at hfind
  · intro q rest ihq ihrest n hfind hne
    rw [preorder_list, List.find?_append] at hfind
    rcases hq : (preorder q).find? is_hit with _ | nq
    · have hq0 : decode_part dec q = [] := decode_no_hit dec q (by
        intro r hr
        simpa using List.find?_eq_none.mp hq r hr)
      rw [hq, Option.none_or] at hfind
      have hrec := ihrest n hfind hne
      simp [decode_parts, hq0, hrec]
    · rw [hq] at hfind
      simp only [Option.or] at hfind
      cases hfind
      have hdq := ihq n hq hne
      simp only [decode_parts, hdq]
      rw [if_neg (by simpa using hne)]

/-- Claim C5 (amended): the walk of `_decode_part` is pre-order, and when
the first pre-order part that is textual with a present payload decodes
to non-empty text, `_decode_part` returns exactly that text; but a part
whose decode fails (or is empty) yields `""` only locally — the search
then continues to later parts instead of making the whole extraction
return `""`. -/
theorem C5_first_textual_part (dec : List Char → Option (List Char)) (p n : MimePart)
    (hfind : (preorder p).find? is_hit = some n)
    (hne : decode_value dec n ≠ []) :
    decode_part dec p = decode_value dec n :=
  decode_part_find dec p n hfind hne

/-- A decoder agreeing with
`base64.urlsafe_b64decode(d).decode("utf-8", errors="replace")` on the
payload `"aGk="` (which decodes to `"hi"`), failing elsewhere. -/
def dec1 : List Char → Option (List Char) :=
  fun d => if d = "aGk=".toList then some "hi".toList else none

def c5_wnode : MimePart := .mk "text/plain".toList (some "aGk=".toList) []

def c5_wtree : MimePart := .mk "multipart/alternative".toList none [c5_wnode]

/-- Witness for `C5_first_textual_part` at a concrete tree. -/
theorem C5_first_textual_part_witness :
    decode_part dec1 c5_wtree = decode_value dec1 c5_wnode :=
  C5_first_textual_part dec1 c5_wtree c5_wnode rfl (by decide)

/-- A decoder agreeing with
`base64.urlsafe_b64decode(d.encode()).decode("utf-8", errors="replace")`
on the two payloads of `c5_tree`: `"a"` raises `binascii.Error` (invalid
length), modelled as `none`, and `"aGVsbG8="` decodes to `"hello"`. -/
def dec0 : List Char → Option (List Char) :=
  fun d => if d = "aGVsbG8=".toList then some "hello".toList else none

def c5_tree : MimePart :=
  .mk "multipart/mixed".toList none
    [.mk "text/plain".toList (some ['a']) [],
     .mk "text/plain".toList (some "aGVsbG8=".toList) []]

/-- Counterexample to claim C5 as stated: in `c5_tree` the first pre-order
textual part with payload data is the one carrying `"a"`, whose decode
fails; the claim says the result is then the empty string, but
`_decode_part` treats the empty local result as a miss and falls through
to the second part, returning `"hello"`. -/
theorem C5_cex :
    ((preorder c5_tree).find? is_hit).map part_data = some (some ['a']) ∧
      dec0 ['a'] = none ∧
      decode_part dec0 c5_tree = "hello".toList ∧
      decode_part dec0 c5_tree ≠ [] := by
  refine ⟨rfl, by decide, by decide, by decide⟩

/-! ## Claim C10: header-map normalization and permutations -/

/-- Counterexample to claim C10 as stated: two header lists that are equal
as multisets but repeat the name `X` produce different maps — the dict
comprehension keeps the LAST value for a repeated name, so the result
depends on order, and the sorted-multiset cache key cannot distinguish
the two inputs. -/
theorem C10_cex :
    List.Perm [("X".toList, "1".toList), ("X".toList, "2".toList)]
      [("X".toList, "2".toList), ("X".toList, "1".toList)] ∧
      (headers_to_dict [("X".toList, "1".toList), ("X".toList, "2".toList)]).lookup
          "X".toList ≠
        (headers_to_dict [("X".toList, "2".toList), ("X".toList, "1".toList)]).lookup
          "X".toList := by
  constructor
  · exact List.Perm.swap _ _ _
  · decide

theorem foldl_upsert_nodup (hs : List (List Char × List Char)) :
    ∀ d, ((d ++ hs).map Prod.fst).Nodup → hs.foldl dictUpsert d = d ++ hs := by
  induction hs with
  | nil => intro d _; simp
  | cons kv rest ih =>
      intro d hnd
      have hnot : kv.1 ∉ d.map Prod.fst := by
        rw [List.map_append] at hnd
        intro hmem
        exact ((List.nodup_append.mp hnd).2.2 hmem) (by simp)
      have hup : dictUpsert d kv = d ++ [kv] := by
        unfold dictUpsert
        rw [if_neg]
        intro hany
        rw [List.any_eq_true] at hany
        obtain ⟨p, hp, he⟩ := hany
        rw [decide_eq_true_eq] at he
        exact hnot (List.mem_map.mpr ⟨p, hp, he⟩)
      rw [List.foldl_cons, hup, ih (d ++ [kv]) (by simpa using hnd)]
      simp

theorem headers_to_dict_of_nodup (hs : List (List Char × List Char))
    (hnd : (hs.map Prod.fst).Nodup) : headers_to_dict hs = hs :=
  foldl_upsert_nodup hs [] (by simpa using hnd)

theorem lookup_perm :
    ∀ hs1 hs2 : List (List Char × List Char), hs1.Perm hs2 →
      (hs1.map Prod.fst).Nodup → ∀ k, hs1.lookup k = hs2.lookup k := by
  intro hs1 hs2 hp
  induction hp with
  | nil => intro _ _; rfl
  | cons x h ih =>
      intro hnd k
      obtain ⟨kx, vx⟩ := x
      cases hkx : k == kx <;>
        simp [List.lookup, hkx, ih (by simpa using hnd.of_cons) k]
  | swap x y l =>
      intro hnd k
      obtain ⟨kx, vx⟩ := x
      obtain ⟨ky, vy⟩ := y
      have hxy : ky ≠ kx := by
        simp only [List.map_cons, List.nodup_cons] at hnd
        intro he
        exact hnd.1 (by simp [he])
      cases hkx : k == kx <;> cases hky : k == ky <;>
        simp only [List.lookup, hkx, hky]
      exact absurd ((eq_of_beq hky).symm.trans (eq_of_beq hkx)) hxy
  | trans h12 h23 ih12 ih23 =>
      intro hnd k
      rw [ih12 hnd k, ih23 ((h12.map Prod.fst).nodup hnd) k]

/-- Claim C10 (amended): `_headers_to_dict` is order-independent only for
header lists without repeated names — for those, any two permutation-
equal lists give maps with identical lookups, so the sorted-multiset
cache key is sound; with repeated names the map depends on order (last
occurrence wins) and the memoization can return a map differing from the
fresh computation. -/
theorem C10_headers_perm (hs1 hs2 : List (List Char × List Char))
    (hp : hs1.Perm hs2) (hnd : (hs1.map Prod.fst).Nodup) (k : List Char) :
    (headers_to_dict hs1).lookup k = (headers_to_dict hs2).lookup k := by
  rw [headers_to_dict_of_nodup hs1 hnd,
    headers_to_dict_of_nodup hs2 ((hp.map Prod.fst).nodup hnd)]
  exact lookup_perm hs1 hs2 hp hnd k

/-- Witness for `C10_headers_perm` at a concrete permuted header list. -/
theorem C10_headers_perm_witness :
    (headers_to_dict [("A".toList, "1".toList), ("B".toList, "2".toList)]).lookup
        "A".toList =
      (headers_to_dict [("B".toList, "2".toList), ("A".toList, "1".toList)]).lookup
        "A".toList :=
  C10_headers_perm _ _ (List.Perm.swap _ _ _) (by decide) "A".toList

/-! ## Claim C9: graceful degradation of the core operations -/

/-- Counterexample to claim C9 as stated: `clean_gmail_message` reads the
message id with `msg["id"]` (not `.get`), so a message dict with the id
missing makes Python raise `KeyError` — modelled here by the embedding
returning `none` — instead of returning a degraded value. -/
theorem C9_cex :
    clean_gmail_message id id (fun _ => none) (fun _ => none) 0
      ⟨none, none, none, none, none, none, none⟩ = none := rfl

theorem decode_part_always_none (dec : List Char → Option (List Char))
    (hdec : ∀ d, dec d = none) : ∀ p, decode_part dec p = [] := by
  refine preorder.induct (fun p => decode_part dec p = [])
    (fun ps => decode_parts dec ps = []) ?_ ?_ ?_
  · intro m d ps ih
    by_cases hr : is_hit (.mk m d ps) = true
    · simp only [decode_part, hr, if_true]
      cases d with
      | none => rfl
      | some dd => simp [decode_value, part_data, hdec dd]
    · simp [decode_part, hr, ih]
  · rfl
  · intro q rest ihq ihrest
    simp [decode_parts, ihq, ihrest]

/-- Claim C9 (amended): the embedded operations are total functions, and
Gmail-message cleaning returns a value for every message that carries an
`id` (only a missing `id` raises); in particular a base64 payload that
never decodes is treated as empty text throughout the part tree. -/
theorem C9_graceful :
    (∀ (parse_reply html_to_text : List Char → List Char)
        (dec : List Char → Option (List Char)) (parse_date : List Char → Option Int)
        (now_ms : Int) (msg : GmailMsg) (gid : List Char), msg.id = some gid →
        (clean_gmail_message parse_reply html_to_text dec parse_date now_ms
          msg).isSome = true) ∧
      ∀ dec : List Char → Option (List Char), (∀ d, dec d = none) →
        ∀ p, decode_part dec p = [] := by
  constructor
  · intro parse_reply html_to_text dec parse_date now_ms msg gid hid
    simp only [clean_gmail_message, hid]
    rfl
  · exact decode_part_always_none

/-- Witness for `C9_graceful` at a concrete message and part tree. -/
theorem C9_graceful_witness :
    (clean_gmail_message id id (fun _ => none) (fun _ => none) 0
        ⟨some "m1".toList, none, none, some "hi".toList, none, none, none⟩).isSome = true ∧
      decode_part (fun _ => none) (.mk "text/plain".toList (some ['x']) []) = [] :=
  ⟨C9_graceful.1 id id (fun _ => none) (fun _ => none) 0 _ "m1".toList rfl,
    C9_graceful.2 (fun _ => none) (fun _ => rfl) _⟩

end MailMinder
